import Mathlib

/-!
Shallow embedding of `src/skills/data-analysis/analyzer.py` (class `Analyzer`),
the profiling / insight engine and the RFM segmenter.

Modelling conventions:
* A pandas DataFrame is a `Dataset`: an ordered list of named, typed columns.
  Numeric cells are `Option ℚ` (`none` = NaN / missing); text cells are
  `Option String`.  Float arithmetic is modelled by exact rational arithmetic.
* Operations that can raise return `Except AErr _`.
* `pd.qcut(col, q, labels=False, duplicates='drop')`, `Series.rank(method='first')`
  and `pd.cut(col, bins=n, labels=False)` are embedded following the pandas
  implementation (`pandas/core/reshape/tile.py`: quantile edges by linear
  interpolation, `unique` on the edges, `searchsorted(side='left')`, the
  `include_lowest` fix-up, and the `na_mask` that turns out-of-range ids into NaN).
* Comparisons against NaN are `False` in Python; on `Option`-valued results the
  embedding makes every comparison involving `none` false.
-/

-- Batteries marks the `Rat` arithmetic operations `@[irreducible]` as an
-- elaboration-hygiene measure.  Demote them back to the default semireducible
-- status so that `decide` can evaluate concrete rational computations.
-- Reducibility attributes are invisible to the kernel, so this does not
-- weaken any check: every proof below is still kernel-checked as usual.
set_option allowUnsafeReducibility true in
attribute [semireducible] Rat.add Rat.mul Rat.inv Rat.sub

instance {ε α : Type} [DecidableEq ε] [DecidableEq α] : DecidableEq (Except ε α) :=
  fun x y =>
    match x, y with
    | .ok a, .ok b =>
      if h : a = b then .isTrue (by rw [h]) else .isFalse (fun hc => by cases hc; exact h rfl)
    | .error a, .error b =>
      if h : a = b then .isTrue (by rw [h]) else .isFalse (fun hc => by cases hc; exact h rfl)
    | .ok _, .error _ => .isFalse (fun hc => by cases hc)
    | .error _, .ok _ => .isFalse (fun hc => by cases hc)

namespace Analyzer

/-! ### Data model -/

/-- Cell data of one column: numeric (float, NaN = `none`) or object/text dtype. -/
inductive ColData
  | numeric (cells : List (Option ℚ))
  | text (cells : List (Option String))
deriving DecidableEq, Repr

/-- A named, typed column of a DataFrame. -/
structure Column where
  name : String
  data : ColData
deriving DecidableEq, Repr

/-- Number of cells in a column. -/
def ColData.clen : ColData → ℕ
  | .numeric cs => cs.length
  | .text cs => cs.length

/-- `df[col].isnull().sum()`: number of missing cells of a column. -/
def ColData.missingCount : ColData → ℕ
  | .numeric cs => cs.countP (fun c => c.isNone)
  | .text cs => cs.countP (fun c => c.isNone)

/-- An in-memory DataFrame: ordered list of named columns. -/
structure Dataset where
  cols : List Column
deriving DecidableEq, Repr

/-- `len(df)`: the row count, read off the first column (0 for a column-less frame). -/
def Dataset.nrows (d : Dataset) : ℕ :=
  match d.cols with
  | [] => 0
  | c :: _ => c.data.clen

/-- The dataset is rectangular: every column has `nrows` cells.  (Every real
DataFrame satisfies this; theorems that need it take it as a hypothesis.) -/
def Rect (d : Dataset) : Prop := ∀ c ∈ d.cols, c.data.clen = d.nrows

instance (d : Dataset) : Decidable (Rect d) := List.decidableBAll _ _

/-- `df.select_dtypes(include=[np.number])`, keeping column order:
the numeric columns as (name, cells) pairs. -/
def numericCols (d : Dataset) : List (String × List (Option ℚ)) :=
  d.cols.filterMap (fun c =>
    match c.data with
    | .numeric cs => some (c.name, cs)
    | .text _ => none)

/-- Errors raised by the analyzer (Python `ValueError` / `KeyError` / `TypeError`). -/
inductive AErr
  | noNumericData          -- "No numeric columns found for correlation"
  | missingColumn (name : String)   -- KeyError from df[col]
  | nonNumericColumn (name : String) -- TypeError: qcut on a non-numeric column
  | emptyData              -- "Cannot cut empty array" (pd.cut on a 0-row frame)
deriving DecidableEq, Repr

/-! ### Analyzer.profile (the fields consumed by generate_insights) -/

/-- The part of `DataProfile` that `generate_insights` reads: row/column counts
and the missing-value summary (`total_missing` and `len(columns_with_missing)`).
The remaining source fields (memory usage string, dtype map, describe() tables,
summary text) are pure formatting over the same data and are not modelled. -/
structure ProfileR where
  rowCount : ℕ
  columnCount : ℕ
  totalMissing : ℕ
  missingColsCount : ℕ
deriving DecidableEq, Repr

/-- `Analyzer.profile`: `row_count = len(df)`, `column_count = len(df.columns)`,
`total_missing = df.isnull().sum().sum()`,
`missingColsCount = len(missing[missing > 0])`. -/
def profile (d : Dataset) : ProfileR :=
  { rowCount := d.nrows
    columnCount := d.cols.length
    totalMissing := (d.cols.map (fun c => c.data.missingCount)).sum
    missingColsCount := d.cols.countP (fun c => decide (0 < c.data.missingCount)) }

/-! ### Numeric helpers (pandas nan-aware statistics over one column) -/

/-- The non-NaN values of a numeric column (pandas skipna semantics). -/
def presentVals (cells : List (Option ℚ)) : List ℚ := cells.filterMap id

/-- `Series.mean()` (skipna): `none` when no value is present. -/
def meanQ (cells : List (Option ℚ)) : Option ℚ :=
  let xs := presentVals cells
  if xs.length = 0 then none else some (xs.sum / xs.length)

/-- `Series.std() ** 2`: the sample variance (ddof=1, skipna); `none` (NaN std)
when fewer than two values are present. -/
def varQ (cells : List (Option ℚ)) : Option ℚ :=
  let xs := presentVals cells
  if xs.length < 2 then none
  else some ((xs.map (fun x => (x - xs.sum / xs.length) ^ 2)).sum / ((xs.length : ℚ) - 1))

/-- Trigger of the "high variability" insight:
`cv = std/mean * 100 if mean != 0 else 0`, emitted iff `cv > 50`.
Since `std = sqrt var` is irrational, the test `std/mean*100 > 50` is encoded
over ℚ as `0 < mean ∧ mean^2 < 4*var` (equivalent for `mean ≠ 0`, see
`cv_encoding`); a NaN std (fewer than 2 present values) or NaN mean never
triggers, matching Python where every comparison with NaN is false. -/
def cvHighB (cells : List (Option ℚ)) : Bool :=
  match meanQ cells, varQ cells with
  | some μ, some v => decide (0 < μ ∧ μ ^ 2 < 4 * v)
  | _, _ => false

/-- `Series.skew()` insight: pandas `nanskew` computes the adjusted Fisher-Pearson
estimator `G1 = sqrt(n*(n-1))/(n-2) * m3/m2^(3/2)` over the present values
(NaN when `n < 3`, `0` when `m2 == 0`); the insight fires iff `|G1| > 1`,
encoded by squaring: `n*(n-1)*m3^2 > (n-2)^2*m2^3`.  Returns the direction
(`true` = "right", i.e. `G1 > 0`, i.e. `m3 > 0`) when the insight fires. -/
def skewInsight (cells : List (Option ℚ)) : Option Bool :=
  let xs := presentVals cells
  let n := xs.length
  if n < 3 then none
  else
    let μ := xs.sum / (n : ℚ)
    let m2 := (xs.map (fun x => (x - μ) ^ 2)).sum / (n : ℚ)
    let m3 := (xs.map (fun x => (x - μ) ^ 3)).sum / (n : ℚ)
    if m2 = 0 then none
    else if (n : ℚ) * ((n : ℚ) - 1) * m3 ^ 2 > ((n : ℚ) - 2) ^ 2 * m2 ^ 3
    then some (0 < m3) else none

/-! ### Pearson correlation (`Analyzer.correlation`, pandas `nancorr`) -/

/-- Exact representation of a Pearson coefficient `r = num / sqrt den2`
with `num = Σ(x-x̄)(y-ȳ)` and `den2 = Σ(x-x̄)² * Σ(y-ȳ)²` (so `den2 > 0`
whenever the value is defined).  Comparisons on `|r|`, the `> 0.7` threshold
and the sign are decided exactly by cross-multiplying squares. -/
structure PearsonR where
  num : ℚ
  den2 : ℚ
deriving DecidableEq, Repr

/-- The pairwise-complete observations of two columns: the rows where both
cells are non-NaN (pandas `nancorr` masks rows with a NaN in either column). -/
def completePairs (xs ys : List (Option ℚ)) : List (ℚ × ℚ) :=
  (xs.zip ys).filterMap (fun p =>
    match p.1, p.2 with
    | some a, some b => some (a, b)
    | _, _ => none)

/-- The Pearson coefficient of a list of complete observation pairs:
NaN (`none`) when either column is constant on them (zero variance). -/
def pearsonOf (ps : List (ℚ × ℚ)) : Option PearsonR :=
  let mx := (ps.map Prod.fst).sum / (ps.length : ℚ)
  let my := (ps.map Prod.snd).sum / (ps.length : ℚ)
  let c : ℚ := (ps.map (fun p => (p.1 - mx) * (p.2 - my))).sum
  let vx : ℚ := (ps.map (fun p => (p.1 - mx) ^ 2)).sum
  let vy : ℚ := (ps.map (fun p => (p.2 - my) ^ 2)).sum
  if vx * vy = 0 then none else some ⟨c, vx * vy⟩

/-- One entry of `df.corr(method='pearson', min_periods=1)`: computed over the
pairwise-complete observations; NaN (`none`) when no complete pair exists
(count < min_periods = 1) or when either column is constant (zero variance). -/
def pearson (xs ys : List (Option ℚ)) : Option PearsonR :=
  if (completePairs xs ys).length = 0 then none
  else pearsonOf (completePairs xs ys)

/-- `|a| >= |b|` on exactly-represented coefficients (`a.num²/a.den2 ≥ b.num²/b.den2`,
cross-multiplied by the positive denominators). -/
def PearsonR.absGe (a b : PearsonR) : Bool :=
  decide (b.num ^ 2 * a.den2 ≤ a.num ^ 2 * b.den2)

/-- `abs(r) > 0.7`, i.e. `num² > 0.49 * den2`. -/
def PearsonR.absGt07 (a : PearsonR) : Bool :=
  decide ((49 : ℚ) / 100 * a.den2 < a.num ^ 2)

/-- `r > 0` (the sign of the numerator, since `sqrt den2 > 0`). -/
def PearsonR.pos (a : PearsonR) : Bool := decide (0 < a.num)

/-- `Analyzer.correlation`: raises `ValueError("No numeric columns found...")`
when `numeric_df.empty`, which for pandas means *either* axis has length 0 —
zero numeric columns **or** zero rows.  Otherwise returns the full pearson
matrix (`numeric_df.corr`). -/
def correlation (d : Dataset) : Except AErr (List (List (Option PearsonR))) :=
  let nc := numericCols d
  if nc.isEmpty ∨ d.nrows = 0 then .error .noNumericData
  else .ok (nc.map (fun ci => nc.map (fun cj => pearson ci.2 cj.2)))

/-! ### generate_insights -/

/-- The insight strings produced by `generate_insights`, one constructor per
format string of the source, carrying the data interpolated into the string:
`rowcol` = "Dataset has {rows} rows and {cols} columns",
`missingCols` = "{n} columns have missing values",
`highVariability` = "{col} has high variability (CV: ...)",
`skewed` = "{col} is skewed to the {right/left}",
`strongCorr` = "Strong {positive/negative} correlation between {a} and {b} (r=...)". -/
inductive Insight
  | rowcol (rows cols : ℕ)
  | missingCols (n : ℕ)
  | highVariability (col : String)
  | skewed (col : String) (right : Bool)
  | strongCorr (a b : String) (positive : Bool)
deriving DecidableEq, Repr

/-- One element of the `corr_pairs` list: `(corr.iloc[i, j], corr.columns[i],
corr.columns[j])`. -/
structure CPair where
  r : Option PearsonR
  a : String
  b : String
deriving DecidableEq, Repr

/-- The key comparison of the Python sort `corr_pairs.sort(reverse=True,
key=lambda x: abs(x[0]))`: `x` sorts at or before `y` iff `abs(x.r) >= abs(y.r)`.
Any comparison involving a NaN coefficient is false (IEEE semantics); the
relative order the source's sort gives elements with NaN keys is unspecified,
and no claim depends on it. -/
def keyGe (x y : CPair) : Bool :=
  match x.r, y.r with
  | some a, some b => a.absGe b
  | _, _ => false

/-- Stable insert for `sortDescBy`: `x` (coming from earlier in the input) is
placed before the first element it compares `ge` to. -/
def insertGe (ge : CPair → CPair → Bool) (x : CPair) : List CPair → List CPair
  | [] => [x]
  | y :: ys => if ge x y then x :: y :: ys else y :: insertGe ge x ys

/-- Stable descending sort, modelling Python's `list.sort(reverse=True, key=...)`:
Python's sort is guaranteed stable, and `reverse=True` does not reorder
elements with equal keys, so on a total key preorder any stable descending
sort computes the same list as the source's timsort. -/
def sortDescBy (ge : CPair → CPair → Bool) : List CPair → List CPair
  | [] => []
  | x :: xs => insertGe ge x (sortDescBy ge xs)

/-- `corr_pairs[0]` after the sort: the reported top pair. -/
def topPair (l : List CPair) : Option CPair := (sortDescBy keyGe l).head?

/-- The `corr_pairs` enumeration, `for i in range(len(cols)): for j in
range(i+1, len(cols))`: pairs in fixed order, first index increasing, second
index strictly larger.  `corr.iloc[i, j]` is exactly `pearson colᵢ colⱼ`
(see `corrMatrix_entry`). -/
def pairsUpper : List (String × List (Option ℚ)) → List CPair
  | [] => []
  | c :: rest => rest.map (fun c2 => ⟨pearson c.2 c2.2, c.1, c2.1⟩) ++ pairsUpper rest

/-- The per-column block of the numeric-insights loop of `generate_insights`
(CV and skew tests for one of the first three numeric columns). -/
def numColInsights (c : String × List (Option ℚ)) : List Insight :=
  (if cvHighB c.2 then [Insight.highVariability c.1] else []) ++
  (match skewInsight c.2 with
   | some r => [Insight.skewed c.1 r]
   | none => [])

/-- The insights `generate_insights` collects before the correlation step:
the row/column insight, the missing-columns insight when any value is missing,
and the CV/skew insights for the first three numeric columns. -/
def baseInsights (d : Dataset) : List Insight :=
  [Insight.rowcol (profile d).rowCount (profile d).columnCount] ++
  (if 0 < (profile d).totalMissing
   then [Insight.missingCols (profile d).missingColsCount] else []) ++
  ((numericCols d).take 3).flatMap numColInsights

/-- The correlation insight block of `generate_insights`: take `corr_pairs[0]`
after the stable descending sort by `abs(coefficient)` and report it when
`abs(top_corr[0]) > 0.7` (`corr_pairs` is nonempty whenever at least two
numeric columns exist, so the `if corr_pairs:` guard of the source is the
`none` case of `topPair`). -/
def corrInsightOf (nc : List (String × List (Option ℚ))) : List Insight :=
  match topPair (pairsUpper nc) with
  | none => []
  | some t =>
    match t.r with
    | some r => if r.absGt07 then [Insight.strongCorr t.a t.b r.pos] else []
    | none => []

/-- `Analyzer.generate_insights`: base row/column insight, the missing-columns
insight when any value is missing, CV/skew insights for the first three numeric
columns, and — when at least two numeric columns exist — the top-|correlation|
pair insight if its coefficient exceeds 0.7 in absolute value.  The only
statement that can raise is the `self.correlation(df)` call. -/
def generateInsights (d : Dataset) : Except AErr (List Insight) :=
  if 2 ≤ (numericCols d).length then
    match correlation d with
    | .error e => .error e
    | .ok _ => .ok (baseInsights d ++ corrInsightOf (numericCols d))
  else .ok (baseInsights d)

/-! ### pd.qcut / Series.rank / pd.cut (pandas/core/reshape/tile.py) -/

/-- numpy linear-interpolation quantile of the (sorted, nonempty) list `xs` at
probability `p`: `h = p*(m-1)`, result `= xs[⌊h⌋] + (h-⌊h⌋)*(xs[⌊h⌋+1] - xs[⌊h⌋])`. -/
def quantileAt (xs : List ℚ) (p : ℚ) : ℚ :=
  let m := xs.length
  let h : ℚ := p * ((m : ℚ) - 1)
  let lo := h.floor.toNat
  let x0 := xs.getD lo 0
  let x1 := xs.getD (lo + 1) x0
  x0 + (h - (lo : ℚ)) * (x1 - x0)

/-- Remove adjacent duplicates (pandas `unique` applied to the already
nondecreasing quantile edge list). -/
def dedupAdj : List ℚ → List ℚ
  | [] => []
  | [x] => [x]
  | x :: y :: rest => if x = y then dedupAdj (y :: rest) else x :: dedupAdj (y :: rest)

/-- The bin edges of `pd.qcut(col, q, duplicates='drop')`: the quantiles of the
non-NaN values at probabilities `0, 1/q, ..., 1`, with duplicate edges dropped. -/
def qcutEdges (present : List ℚ) (q : ℕ) : List ℚ :=
  let s := List.insertionSort (· ≤ ·) present
  dedupAdj ((List.range (q + 1)).map (fun (i : ℕ) => quantileAt s ((i : ℚ) / (q : ℚ))))

/-- The bin (`labels=False`) of one non-NaN value, from `_bins_to_cuts` with
`right=True, include_lowest=True`: `ids = bins.searchsorted(v, side='left')`
(the number of edges `< v`), forced to 1 when `v` equals the first edge, and
masked to NaN when `ids == 0` or `ids == len(bins)`. -/
def qcutOfEdges (edges : List ℚ) (v : ℚ) : Option ℕ :=
  let ids0 := edges.countP (fun e => decide (e < v))
  let ids := if edges.head? = some v then 1 else ids0
  if ids = 0 ∨ ids = edges.length then none else some (ids - 1)

/-- `pd.qcut(col, q, labels=False, duplicates='drop')` over a whole column:
NaN cells stay NaN; when the column has no present value every output is NaN
(the quantile edges are then all NaN and `isna(x)` masks every row). -/
def qcutList (cells : List (Option ℚ)) (q : ℕ) : List (Option ℕ) :=
  if (presentVals cells).isEmpty then cells.map (fun _ => none)
  else cells.map (fun c => c.bind (qcutOfEdges (qcutEdges (presentVals cells) q)))

/-- `Series.rank(method='first')`: rank `1 + #{j | vⱼ < vᵢ} + #{j < i | vⱼ = vᵢ}`
for a present value (ties broken by position), NaN kept for NaN. -/
def rankFirst (cells : List (Option ℚ)) : List (Option ℚ) :=
  (List.range cells.length).map (fun i =>
    (cells.getD i none).map (fun v =>
      (1 : ℚ)
        + ((cells.countP (fun c =>
            match c with
            | some w => decide (w < v)
            | none => false) : ℕ) : ℚ)
        + (((cells.take i).countP (fun c => c = some v) : ℕ) : ℚ)))

/-- The end-point adjustment `0.001 * abs(x) if x != 0 else 0.001` that
`pd.cut` applies to a degenerate (`mn == mx`) range. -/
def endAdj (x : ℚ) : ℚ := if x = 0 then 1 / 1000 else |x| / 1000

/-- The `n+1` bin edges of `pd.cut(x, bins=n, labels=False, right=True)`:
`linspace(mn, mx, n+1)` over the non-NaN min/max, with the first edge lowered
by 0.1% of the range; when `mn == mx` both end points are moved out by 0.1%
of their magnitude (or 0.001 if zero) before the linspace. -/
def cutEdges (mn mx : ℚ) (n : ℕ) : List ℚ :=
  if mn = mx then
    (List.range (n + 1)).map (fun (j : ℕ) =>
      (mn - endAdj mn) + (j : ℚ) * ((mx + endAdj mx) - (mn - endAdj mn)) / (n : ℚ))
  else
    (List.range (n + 1)).map (fun (j : ℕ) =>
      if j = 0 then mn - (mx - mn) / 1000
      else mn + (j : ℚ) * (mx - mn) / (n : ℚ))

/-- The bin of one non-NaN value under `pd.cut` (`right=True`,
`include_lowest=False`): `ids = #edges < v`, masked when 0 or `len(edges)`. -/
def cutOfEdges (edges : List ℚ) (v : ℚ) : Option ℕ :=
  let ids := edges.countP (fun e => decide (e < v))
  if ids = 0 ∨ ids = edges.length then none else some (ids - 1)

/-- `df[col].min()` (skipna): `none` on an all-NaN/empty column. -/
def listMin : List ℚ → Option ℚ
  | [] => none
  | x :: xs => some (xs.foldl min x)

/-- `df[col].max()` (skipna). -/
def listMax : List ℚ → Option ℚ
  | [] => none
  | x :: xs => some (xs.foldl max x)

/-- `pd.cut(scores, bins=n, labels=False)` over the combined-score column:
NaN scores stay NaN; if every score is NaN the nan-min/max are NaN and every
row is masked. -/
def cutBins (scores : List (Option ℚ)) (n : ℕ) : List (Option ℕ) :=
  match listMin (presentVals scores), listMax (presentVals scores) with
  | some mn, some mx => scores.map (fun o => o.bind (fun v => cutOfEdges (cutEdges mn mx n) v))
  | _, _ => scores.map (fun _ => none)

/-! ### Analyzer.segment_rfm -/

/-- `df[name]` restricted to a numeric operation: `KeyError` when the column is
absent, `TypeError` when qcut is applied to a non-numeric column. -/
def getNumericCol (d : Dataset) (name : String) : Except AErr (List (Option ℚ)) :=
  match d.cols.find? (fun c => c.name = name) with
  | none => .error (.missingColumn name)
  | some c =>
    match c.data with
    | .numeric cs => .ok cs
    | .text _ => .error (.nonNumericColumn name)

/-- The recency scores `n_segments - 1 - pd.qcut(df[r_col], n_segments,
labels=False, duplicates='drop')` (lower recency = higher score); NaN bins give
NaN scores. -/
def rScoresOf (rcells : List (Option ℚ)) (n : ℕ) : List (Option ℚ) :=
  (qcutList rcells n).map (fun o => o.map (fun (b : ℕ) => (n : ℚ) - 1 - (b : ℚ)))

/-- The frequency/monetary scores `pd.qcut(df[col].rank(method='first'),
n_segments, labels=False, duplicates='drop')`. -/
def fmScoresOf (cells : List (Option ℚ)) (n : ℕ) : List (Option ℚ) :=
  (qcutList (rankFirst cells) n).map (fun o => o.map (fun (b : ℕ) => (b : ℚ)))

/-- Elementwise `r_score + f_score + m_score` (pandas Series addition:
NaN-propagating). -/
def rfmSum (r f m : List (Option ℚ)) : List (Option ℚ) :=
  (r.zip (f.zip m)).map (fun t =>
    match t.1, t.2.1, t.2.2 with
    | some a, some b, some c => some (a + b + c)
    | _, _, _ => none)

/-- The combined RFM score column of `segment_rfm`. -/
def rfmScores (d : Dataset) (rcol fcol mcol : String) (n : ℕ) :
    Except AErr (List (Option ℚ)) := do
  let rcells ← getNumericCol d rcol
  let fcells ← getNumericCol d fcol
  let mcells ← getNumericCol d mcol
  .ok (rfmSum (rScoresOf rcells n) (fmScoresOf fcells n) (fmScoresOf mcells n))

/-- The equal-width re-binning stage `pd.cut(rfm_score, bins=n_segments,
labels=False)` of `segment_rfm`. -/
def segmentBins (d : Dataset) (rcol fcol mcol : String) (n : ℕ) :
    Except AErr (List (Option ℕ)) :=
  (rfmScores d rcol fcol mcol n).map (fun s => cutBins s n)

/-- The final label lookup `segment_labels.get(min(x, 4), 'Other')`: a defined
bin index is capped at 4 and looked up in the fixed table; a NaN bin gives
`'Other'` (`min(nan, 4)` is nan in Python, and `dict.get` on a nan key falls
back to the default — `Series.map` applies the lambda to NaN entries too). -/
def segLabel : Option ℕ → String
  | none => "Other"
  | some b =>
    if min b 4 = 0 then "Lost"
    else if min b 4 = 1 then "At Risk"
    else if min b 4 = 2 then "Potential Loyalist"
    else if min b 4 = 3 then "Loyal Customer"
    else "Champion"

/-- `Analyzer.segment_rfm`: quantile-score the three columns, sum, re-bin the
sum into `n_segments` equal-width bins, and map bins to labels.  On a 0-row
frame `pd.cut` raises `ValueError("Cannot cut empty array")`. -/
def segment_rfm (d : Dataset) (rcol fcol mcol : String) (n : ℕ) :
    Except AErr (List String) := do
  let s ← rfmScores d rcol fcol mcol n
  if s.isEmpty then .error .emptyData
  else .ok ((cutBins s n).map segLabel)

/-! ### State-passing wrappers (frame effects)

The Python bodies of `profile`, `correlation`, `generate_insights` and
`segment_rfm` only *read* `df`: they contain no assignment into `df`
(no `df[...] = ...`, no `inplace=True` call), so threading the dataset
through each call returns it unchanged. -/

/-- `profile` with the input frame threaded through. -/
def profileS (d : Dataset) : Dataset × ProfileR := (d, profile d)

/-- `correlation` with the input frame threaded through. -/
def correlationS (d : Dataset) : Dataset × Except AErr (List (List (Option PearsonR))) :=
  (d, correlation d)

/-- `generate_insights` with the input frame threaded through. -/
def generateInsightsS (d : Dataset) : Dataset × Except AErr (List Insight) :=
  (d, generateInsights d)

/-- `segment_rfm` with the input frame threaded through. -/
def segmentRfmS (d : Dataset) (rcol fcol mcol : String) (n : ℕ) :
    Dataset × Except AErr (List String) :=
  (d, segment_rfm d rcol fcol mcol n)

/-! ### Spec-side definitions used to state claims -/

/-- Python's `>=` on two possibly-NaN float scores: any comparison involving
NaN is false. -/
def scoreGe (x y : Option ℚ) : Bool :=
  match x, y with
  | some a, some b => decide (b ≤ a)
  | _, _ => false

/-- Scale every value of a numeric column by a constant. -/
def scaleCells (c : ℚ) (cells : List (Option ℚ)) : List (Option ℚ) :=
  cells.map (Option.map (fun x => c * x))

/-- The first element of the list that no later element strictly beats under
`ge` — for `ge = keyGe`, the first pair in enumeration order attaining the
maximum absolute correlation.  This is the spec-side description of the
tie-breaking of the source's stable descending sort (see `sortDescBy_head`). -/
def firstSelect (ge : CPair → CPair → Bool) : List CPair → Option CPair
  | [] => none
  | p :: ps =>
    match firstSelect ge ps with
    | none => some p
    | some q => if ge p q then some p else some q

/-- A pair is well-formed when its coefficient is defined with the positive
denominator produced by `pearson`. -/
def GoodPair (p : CPair) : Prop := ∃ r, p.r = some r ∧ 0 < r.den2

/-! ### Concrete datasets used by individual claims -/

/-- C1: six distinct values per column, `n_segments = 6 > 5`, so the top row
reaches final bin index 5. -/
def d1 : Dataset := ⟨[
  ⟨"recency", .numeric [some 1, some 2, some 3, some 4, some 5, some 6]⟩,
  ⟨"frequency", .numeric [some 1, some 2, some 3, some 4, some 5, some 6]⟩,
  ⟨"monetary", .numeric [some 1, some 2, some 3, some 4, some 5, some 6]⟩]⟩

/-- C2: the scenario dataset of the spec. -/
def d2 : Dataset := ⟨[
  ⟨"recency", .numeric [some 1, some 5, some 10, some 50]⟩,
  ⟨"frequency", .numeric [some 10, some 8, some 3, some 1]⟩,
  ⟨"monetary", .numeric [some 500, some 300, some 100, some 20]⟩]⟩

/-- C3 counterexample: no missing values, but the constant recency column makes
every quantile edge collapse, so every combined score is NaN. -/
def d3 : Dataset := ⟨[
  ⟨"recency", .numeric [some 1, some 1]⟩,
  ⟨"frequency", .numeric [some 1, some 2]⟩,
  ⟨"monetary", .numeric [some 1, some 2]⟩]⟩

/-- C3 witness: distinct values everywhere, all scores defined. -/
def d3w : Dataset := ⟨[
  ⟨"recency", .numeric [some 1, some 2]⟩,
  ⟨"frequency", .numeric [some 1, some 2]⟩,
  ⟨"monetary", .numeric [some 1, some 2]⟩]⟩

/-- C4 counterexample: a constant recency column; both recency scores are NaN,
so the Python comparison `score_a >= score_b` is false even though
`recency_a <= recency_b`. -/
def d4 : Dataset := ⟨[
  ⟨"recency", .numeric [some 1, some 1]⟩,
  ⟨"frequency", .numeric [some 1, some 2]⟩,
  ⟨"monetary", .numeric [some 1, some 2]⟩]⟩

/-- C5 witness: three identical numeric columns, every pair has r = 1, the tie
resolves to the first enumerated pair (x, y). -/
def d5 : Dataset := ⟨[
  ⟨"x", .numeric [some 1, some 2, some 3]⟩,
  ⟨"y", .numeric [some 1, some 2, some 3]⟩,
  ⟨"z", .numeric [some 1, some 2, some 3]⟩]⟩

/-- C6 witness: exactly one numeric column (plus a text column). -/
def d6 : Dataset := ⟨[
  ⟨"a", .numeric [some 1, some 2]⟩,
  ⟨"t", .text [some "u", some "v"]⟩]⟩

/-- C7 counterexample: one numeric column but zero rows — `numeric_df.empty`
is true for a (0, 1)-shaped frame, so `correlation` still raises. -/
def d7bad : Dataset := ⟨[⟨"x", .numeric []⟩]⟩

/-- C7 witness, error side: an all-text dataset. -/
def d7text : Dataset := ⟨[⟨"t", .text [some "a", some "b"]⟩]⟩

/-- C7 witness, success side: one numeric column, one row. -/
def d7good : Dataset := ⟨[⟨"x", .numeric [some 1]⟩]⟩

/-- C9 witness: a dataset with one missing value. -/
def d9w : Dataset := ⟨[⟨"a", .numeric [some 1, none]⟩]⟩

/-! ## Theorems -/

/-! ### C10: none of the operations mutate the input dataset -/

/-- C10: `profile`, `generate_insights`, `correlation` and `segment_rfm` leave
the input dataset unchanged — their bodies only read `df`, so the threaded
state of each state-passing wrapper is the input itself, and the same dataset
value can be reused across any number of sequential calls. -/
theorem c10_no_mutation :
    ∀ (d : Dataset) (rcol fcol mcol : String) (n : ℕ),
      (profileS d).1 = d ∧ (correlationS d).1 = d ∧ (generateInsightsS d).1 = d ∧
        (segmentRfmS d rcol fcol mcol n).1 = d :=
  fun _ _ _ _ _ => ⟨rfl, rfl, rfl, rfl⟩

/-! ### C2: the spec scenario dataset -/

/-- C2: on `recency=[1,5,10,50]`, `frequency=[10,8,3,1]`, `monetary=[500,300,100,20]`
with `n_segments = 4`, row 0 receives recency score 3 (the best) and the final
segment "Loyal Customer" — a label at or above "Loyal Customer". -/
theorem c2_scenario :
    (getNumericCol d2 "recency").map (fun cs => rScoresOf cs 4) =
      .ok [some 3, some 2, some 1, some 0] ∧
    segment_rfm d2 "recency" "frequency" "monetary" 4 =
      .ok ["Loyal Customer", "Potential Loyalist", "At Risk", "Lost"] ∧
    ("Loyal Customer" = "Loyal Customer" ∨ "Loyal Customer" = "Champion") :=
  ⟨by decide, by decide, Or.inl rfl⟩

/-! ### C1: labels of bin indices at or above 4 -/

/-- C1 counterexample: on `d1` with `n_segments = 6`, row 5 gets final
equal-width bin index 5 (≥ 4), yet its label is "Champion", not "Other" —
`min(x, 4)` caps the index before the table lookup, so the claimed
"bin index ≥ 4 maps to Other" is false. -/
theorem c1_counterexample :
    segmentBins d1 "recency" "frequency" "monetary" 6 =
      .ok [some 0, some 1, some 2, some 3, some 4, some 5] ∧
    segment_rfm d1 "recency" "frequency" "monetary" 6 =
      .ok ["Lost", "At Risk", "Potential Loyalist", "Loyal Customer",
           "Champion", "Champion"] ∧
    "Champion" ≠ "Other" :=
  ⟨by decide, by decide, by decide⟩

/-- C1 (amended): in `segment_rfm`, a row with a defined final equal-width bin
index `b` is labeled by the fixed table for `b ≤ 3` and "Champion" for every
`b ≥ 4` (the index is capped at 4 by `min(x, 4)`); "Other" is never produced
for a defined bin index. -/
theorem c1_amended (d : Dataset) (rcol fcol mcol : String) (n : ℕ)
    (bins : List (Option ℕ)) (labels : List String) (i b : ℕ)
    (hbins : segmentBins d rcol fcol mcol n = .ok bins)
    (hlab : segment_rfm d rcol fcol mcol n = .ok labels)
    (hb : bins[i]? = some (some b)) :
    labels[i]? = some (if b = 0 then "Lost" else if b = 1 then "At Risk"
      else if b = 2 then "Potential Loyalist" else if b = 3 then "Loyal Customer"
      else "Champion") := by
  rcases hs : rfmScores d rcol fcol mcol n with e | s
  · rw [segmentBins, hs] at hbins
    exact Except.noConfusion hbins
  · rw [segmentBins, hs] at hbins
    have hb2 : cutBins s n = bins := Except.ok.inj hbins
    rw [segment_rfm, hs] at hlab
    replace hlab :
        (if s.isEmpty = true then (Except.error AErr.emptyData : Except AErr (List String))
         else .ok ((cutBins s n).map segLabel)) = .ok labels := hlab
    cases hemp : s.isEmpty with
    | true =>
      rw [hemp, if_pos rfl] at hlab
      exact Except.noConfusion hlab
    | false =>
      rw [hemp, if_neg (by decide)] at hlab
      have hl2 : (cutBins s n).map segLabel = labels := Except.ok.inj hlab
      subst hb2
      subst hl2
      rw [List.getElem?_map, hb]
      show some (segLabel (some b)) = _
      congr 1
      rcases b with _ | _ | _ | _ | b
      · decide
      · decide
      · decide
      · decide
      · have h4 : min (b + 4) 4 = 4 := by omega
        simp only [segLabel, h4]
        rw [if_neg (by decide), if_neg (by decide), if_neg (by decide), if_neg (by decide),
          if_neg (by omega), if_neg (by omega), if_neg (by omega), if_neg (by omega)]

/-- C1 amended, witness: the theorem applied to `d1`, row 5, bin index 5. -/
theorem c1_amended_witness :
    (["Lost", "At Risk", "Potential Loyalist", "Loyal Customer",
      "Champion", "Champion"] : List String)[5]? =
      some (if 5 = 0 then "Lost" else if 5 = 1 then "At Risk"
        else if 5 = 2 then "Potential Loyalist" else if 5 = 3 then "Loyal Customer"
        else "Champion") :=
  c1_amended d1 "recency" "frequency" "monetary" 6
    [some 0, some 1, some 2, some 3, some 4, some 5]
    ["Lost", "At Risk", "Potential Loyalist", "Loyal Customer",
     "Champion", "Champion"] 5 5 (by decide) (by decide) (by decide)

/-! ### Shared helper lemmas -/

lemma foldl_min_le_init (xs : List ℚ) (init : ℚ) : xs.foldl min init ≤ init := by
  induction xs generalizing init with
  | nil => exact le_refl _
  | cons x xs ih => exact le_trans (ih (min init x)) (min_le_left _ _)

lemma foldl_min_le_mem {xs : List ℚ} {a : ℚ} (init : ℚ) (h : a ∈ xs) :
    xs.foldl min init ≤ a := by
  induction xs generalizing init with
  | nil => cases h
  | cons x xs ih =>
    rcases List.mem_cons.mp h with rfl | h2
    · exact le_trans (foldl_min_le_init xs (min init a)) (min_le_right _ _)
    · exact ih (min init x) h2

lemma listMin_le {l : List ℚ} {m a : ℚ} (hm : listMin l = some m) (ha : a ∈ l) :
    m ≤ a := by
  cases l with
  | nil => cases ha
  | cons x xs =>
    have hmx : m = xs.foldl min x := (Option.some.inj hm).symm
    subst hmx
    rcases List.mem_cons.mp ha with rfl | h2
    · exact foldl_min_le_init xs a
    · exact foldl_min_le_mem x h2

lemma init_le_foldl_max (xs : List ℚ) (init : ℚ) : init ≤ xs.foldl max init := by
  induction xs generalizing init with
  | nil => exact le_refl _
  | cons x xs ih => exact le_trans (le_max_left _ _) (ih (max init x))

lemma mem_le_foldl_max {xs : List ℚ} {a : ℚ} (init : ℚ) (h : a ∈ xs) :
    a ≤ xs.foldl max init := by
  induction xs generalizing init with
  | nil => cases h
  | cons x xs ih =>
    rcases List.mem_cons.mp h with rfl | h2
    · exact le_trans (le_max_right _ _) (init_le_foldl_max xs (max init a))
    · exact ih (max init x) h2

lemma le_listMax {l : List ℚ} {m a : ℚ} (hm : listMax l = some m) (ha : a ∈ l) :
    a ≤ m := by
  cases l with
  | nil => cases ha
  | cons x xs =>
    have hmx : m = xs.foldl max x := (Option.some.inj hm).symm
    subst hmx
    rcases List.mem_cons.mp ha with rfl | h2
    · exact init_le_foldl_max xs a
    · exact mem_le_foldl_max x h2

lemma listMin_isSome {l : List ℚ} (h : l ≠ []) : ∃ m, listMin l = some m := by
  cases l with
  | nil => exact absurd rfl h
  | cons x xs => exact ⟨xs.foldl min x, rfl⟩

lemma listMax_isSome {l : List ℚ} (h : l ≠ []) : ∃ m, listMax l = some m := by
  cases l with
  | nil => exact absurd rfl h
  | cons x xs => exact ⟨xs.foldl max x, rfl⟩

/-- A value present at index `i` of the column belongs to its present values. -/
lemma mem_presentVals {cells : List (Option ℚ)} {i : ℕ} {v : ℚ}
    (h : cells[i]? = some (some v)) : v ∈ presentVals cells := by
  have hmem : some v ∈ cells := by
    have := List.getElem?_eq_some_iff.mp h
    rcases this with ⟨hlt, hget⟩
    exact hget ▸ List.getElem_mem _
  exact List.mem_filterMap.mpr ⟨some v, hmem, rfl⟩

/-- `cutBins` in the branch where the nan-min and nan-max are defined. -/
lemma cutBins_eq_of_minmax {scores : List (Option ℚ)} {n : ℕ} {mn mx : ℚ}
    (hmn : listMin (presentVals scores) = some mn)
    (hmx : listMax (presentVals scores) = some mx) :
    cutBins scores n =
      scores.map (fun o => o.bind (fun v => cutOfEdges (cutEdges mn mx n) v)) := by
  unfold cutBins
  rw [hmn, hmx]

/-- The adjustment is always positive. -/
lemma endAdj_pos (x : ℚ) : 0 < endAdj x := by
  rw [endAdj]
  split_ifs with h0
  · norm_num
  · have := abs_pos.mpr h0
    positivity

/-- Any value between the nan-min and nan-max of the scores gets a defined
`pd.cut` bin: the lowered first edge is strictly below it and the last edge is
at or above it, so its id is strictly between 0 and the number of edges. -/
lemma cutOfEdges_defined {mn mx v : ℚ} {n : ℕ} (hn : 1 ≤ n)
    (h1 : mn ≤ v) (h2 : v ≤ mx) :
    ∃ b, cutOfEdges (cutEdges mn mx n) v = some b := by
  have hnQ : (n : ℚ) ≠ 0 := Nat.cast_ne_zero.mpr (by omega)
  have hfirst : ∃ e ∈ cutEdges mn mx n, e < v := by
    by_cases heq : mn = mx
    · rw [cutEdges, if_pos heq]
      refine ⟨_, List.mem_map_of_mem _ (List.mem_range.mpr (show 0 < n + 1 by omega)), ?_⟩
      have := endAdj_pos mn
      push_cast
      simp only [zero_mul, zero_div, add_zero]
      linarith
    · rw [cutEdges, if_neg heq]
      have hlt : mn < mx := lt_of_le_of_ne (le_trans h1 h2) heq
      refine ⟨_, List.mem_map_of_mem _ (List.mem_range.mpr (show 0 < n + 1 by omega)), ?_⟩
      rw [if_pos rfl]
      nlinarith
  have hlast : ∃ e ∈ cutEdges mn mx n, ¬ e < v := by
    by_cases heq : mn = mx
    · rw [cutEdges, if_pos heq]
      refine ⟨_, List.mem_map_of_mem _ (List.mem_range.mpr (show n < n + 1 by omega)), ?_⟩
      rw [not_lt, mul_div_cancel_left₀ _ hnQ]
      have := endAdj_pos mx
      linarith
    · rw [cutEdges, if_neg heq]
      refine ⟨_, List.mem_map_of_mem _ (List.mem_range.mpr (show n < n + 1 by omega)), ?_⟩
      rw [if_neg (by omega), not_lt, mul_div_cancel_left₀ _ hnQ]
      linarith
  rcases hfirst with ⟨e1, he1, he1v⟩
  rcases hlast with ⟨e2, he2, he2v⟩
  have hids : 0 < (cutEdges mn mx n).countP (fun e => decide (e < v)) :=
    List.countP_pos_iff.mpr ⟨e1, he1, by simpa using he1v⟩
  have hids2 : (cutEdges mn mx n).countP (fun e => decide (e < v)) ≠
      (cutEdges mn mx n).length := by
    intro hc
    have hall := List.countP_eq_length.mp hc
    have := hall e2 he2
    simp at this
    exact he2v this
  refine ⟨(cutEdges mn mx n).countP (fun e => decide (e < v)) - 1, ?_⟩
  rw [cutOfEdges]
  rw [if_neg]
  push_neg
  exact ⟨by omega, hids2⟩

/-- A defined segment label is never "Other". -/
lemma segLabel_some_ne_other (b : ℕ) : segLabel (some b) ≠ "Other" := by
  simp only [segLabel]
  split_ifs <;> decide

/-- A row whose combined score is defined gets a defined `pd.cut` bin. -/
lemma cutBins_defined {s : List (Option ℚ)} {n i : ℕ} {v : ℚ} (hn : 1 ≤ n)
    (hv : s[i]? = some (some v)) : ∃ b, (cutBins s n)[i]? = some (some b) := by
  have hvmem : v ∈ presentVals s := mem_presentVals hv
  have hne : presentVals s ≠ [] := by
    intro h
    rw [h] at hvmem
    cases hvmem
  obtain ⟨mn, hmn⟩ := listMin_isSome hne
  obtain ⟨mx, hmx⟩ := listMax_isSome hne
  obtain ⟨b, hb⟩ := cutOfEdges_defined hn
    (listMin_le hmn hvmem) (le_listMax hmx hvmem)
  refine ⟨b, ?_⟩
  rw [cutBins_eq_of_minmax hmn hmx, List.getElem?_map, hv]
  exact congrArg some hb

/-! ### C3: when is "Other" produced -/

/-- C3 counterexample: `d3` has no missing values and `n_segments = 2 ≥ 2`,
yet every row of `segment_rfm` is labeled "Other": the constant recency column
collapses all quantile edges, every combined score is NaN, and NaN bins map to
"Other" — refuting the claim that "Other" is never returned. -/
theorem c3_counterexample :
    (profile d3).totalMissing = 0 ∧ 2 ≤ 2 ∧
    segment_rfm d3 "recency" "frequency" "monetary" 2 = .ok ["Other", "Other"] :=
  ⟨by decide, by decide, by decide⟩

/-- C3 (amended): a row of `segment_rfm` is labeled "Other" only when its
combined RFM score is NaN; whenever the row's combined score is defined (which
holds when the three columns have no missing values and none of the three
quantile binnings collapses to a single edge), the label is never "Other". -/
theorem c3_amended (d : Dataset) (rcol fcol mcol : String) (n : ℕ) (hn : 1 ≤ n)
    (s : List (Option ℚ)) (labels : List String) (i : ℕ) (v : ℚ)
    (hs : rfmScores d rcol fcol mcol n = .ok s)
    (hv : s[i]? = some (some v))
    (hlab : segment_rfm d rcol fcol mcol n = .ok labels) :
    labels[i]? ≠ some "Other" := by
  rw [segment_rfm, hs] at hlab
  replace hlab :
      (if s.isEmpty = true then (Except.error AErr.emptyData : Except AErr (List String))
       else .ok ((cutBins s n).map segLabel)) = .ok labels := hlab
  cases hemp : s.isEmpty with
  | true =>
    rw [List.isEmpty_iff.mp hemp] at hv
    rw [List.getElem?_nil] at hv
    cases hv
  | false =>
    rw [hemp, if_neg (by decide)] at hlab
    have hl2 : (cutBins s n).map segLabel = labels := Except.ok.inj hlab
    subst hl2
    obtain ⟨b, hbb⟩ := cutBins_defined hn hv
    rw [List.getElem?_map, hbb]
    simp only [Option.map_some' ]
    intro hcon
    exact segLabel_some_ne_other b (Option.some.inj hcon)

/-- C3 amended, witness: the theorem applied to `d3w` (row 0, combined score 1,
label "Lost"). -/
theorem c3_amended_witness :
    (["Lost", "At Risk"] : List String)[0]? ≠ some "Other" :=
  c3_amended d3w "recency" "frequency" "monetary" 2 (by decide)
    [some 1, some 2] ["Lost", "At Risk"] 0 1 (by decide) (by decide) (by decide)

/-! ### C7: when correlation raises NoNumericData -/

/-- C7 counterexample: `d7bad` has one numeric column (so the claim promises no
error) but zero rows, and `correlation` still raises `NoNumericData`, because
`numeric_df.empty` is true whenever either axis has length 0. -/
theorem c7_counterexample :
    (numericCols d7bad).length = 1 ∧ correlation d7bad = .error AErr.noNumericData :=
  ⟨by decide, by decide⟩

/-- C7 (amended): `correlation` raises `NoNumericData` on every dataset with
zero numeric columns; on a dataset with at least one numeric column **and at
least one row** it does not raise. -/
theorem c7_amended (d : Dataset) :
    (numericCols d = [] → correlation d = .error AErr.noNumericData) ∧
    (numericCols d ≠ [] → d.nrows ≠ 0 → ∃ m, correlation d = .ok m) := by
  constructor
  · intro h
    have hemp : (numericCols d).isEmpty = true := by rw [h]; rfl
    rw [correlation, if_pos (Or.inl hemp)]
  · intro h1 h2
    have hemp : ¬((numericCols d).isEmpty = true ∨ d.nrows = 0) := by
      rintro (hc | hc)
      · exact h1 (List.isEmpty_iff.mp hc)
      · exact h2 hc
    rw [correlation, if_neg hemp]
    exact ⟨_, rfl⟩

/-- C7 amended, witness: the all-text dataset raises, the one-row numeric
dataset succeeds. -/
theorem c7_amended_witness :
    correlation d7text = .error AErr.noNumericData ∧ ∃ m, correlation d7good = .ok m :=
  ⟨(c7_amended d7text).1 (by decide), (c7_amended d7good).2 (by decide) (by decide)⟩

/-! ### C4: monotonicity of the recency score -/

/-- Adjacent dedup keeps the first element. -/
lemma dedupAdj_head (x : ℚ) (l : List ℚ) : (dedupAdj (x :: l)).head? = some x := by
  induction l generalizing x with
  | nil => rfl
  | cons y rest ih =>
    rw [dedupAdj]
    split_ifs with hxy
    · rw [hxy]
      exact ih y
    · rfl

/-- The quantile at probability 0 is the first element of the sorted data. -/
lemma quantileAt_zero (s : List ℚ) : quantileAt s 0 = s.getD 0 0 := by
  have h0 : ((0 : ℚ)).floor = 0 := by decide
  simp only [quantileAt, zero_mul, h0, Int.toNat_zero, Nat.cast_zero]
  norm_num

/-- The first `qcut` edge is a lower bound of the column's present values. -/
lemma qcutEdges_head {present : List ℚ} (q : ℕ) (hne : present ≠ []) :
    ∃ e0, (qcutEdges present q).head? = some e0 ∧ ∀ v ∈ present, e0 ≤ v := by
  have hperm := List.perm_insertionSort (· ≤ ·) present
  have hsorted := List.sorted_insertionSort (· ≤ ·) present
  cases hs : List.insertionSort (· ≤ ·) present with
  | nil =>
    rw [hs] at hperm
    exact absurd hperm.nil_eq.symm hne
  | cons h t =>
    refine ⟨h, ?_, ?_⟩
    · rw [qcutEdges, hs]
      have hr : List.range (q + 1) = 0 :: (List.range q).map Nat.succ :=
        List.range_succ_eq_map q
      rw [hr, List.map_cons, dedupAdj_head]
      congr 1
      rw [Nat.cast_zero, zero_div, quantileAt_zero]
      rfl
    · intro v hv
      have hvs : v ∈ h :: t := by
        rw [← hs]
        exact ((List.perm_insertionSort (· ≤ ·) present).mem_iff).mpr hv
      rw [hs] at hsorted
      rcases List.mem_cons.mp hvs with rfl | hvt
      · exact le_refl v
      · exact (List.sorted_cons.mp hsorted).1 v hvt

/-- Monotonicity of the `qcut` bin: among values at or above the first edge
(every present value is), a smaller value gets a bin at most that of a larger
value, whenever both bins are defined. -/
lemma qcutOfEdges_mono {edges : List ℚ} {e0 va vb : ℚ} {ba bb : ℕ}
    (h0 : edges.head? = some e0) (h0a : e0 ≤ va) (_h0b : e0 ≤ vb) (hab : va ≤ vb)
    (ha : qcutOfEdges edges va = some ba) (hb : qcutOfEdges edges vb = some bb) :
    ba ≤ bb := by
  rw [qcutOfEdges] at ha hb
  set ca := edges.countP (fun e => decide (e < va)) with hca
  set cb := edges.countP (fun e => decide (e < vb)) with hcb
  have hmono : ca ≤ cb := by
    rw [hca, hcb]
    apply List.countP_mono_left
    intro e _ he
    simp only [decide_eq_true_eq] at he ⊢
    exact lt_of_lt_of_le he hab
  by_cases hva : edges.head? = some va
  · rw [if_pos hva] at ha
    by_cases hmask : (1 = 0 ∨ 1 = edges.length)
    · rw [if_pos hmask] at ha
      cases ha
    · rw [if_neg hmask] at ha
      have hba : 1 - 1 = ba := Option.some.inj ha
      omega
  · by_cases hvb : edges.head? = some vb
    · have h1 : e0 = vb := by
        rw [h0] at hvb
        exact Option.some.inj hvb
      have heq : va = vb := le_antisymm hab (h1 ▸ h0a)
      rw [heq] at hva
      exact absurd hvb hva
    · rw [if_neg hva] at ha
      rw [if_neg hvb] at hb
      by_cases hmaska : (ca = 0 ∨ ca = edges.length)
      · rw [if_pos hmaska] at ha
        cases ha
      · rw [if_neg hmaska] at ha
        by_cases hmaskb : (cb = 0 ∨ cb = edges.length)
        · rw [if_pos hmaskb] at hb
          cases hb
        · rw [if_neg hmaskb] at hb
          have h1 : ca - 1 = ba := Option.some.inj ha
          have h2 : cb - 1 = bb := Option.some.inj hb
          omega

/-- `qcutList` in the branch where some value is present. -/
lemma qcutList_eq {cells : List (Option ℚ)} {q : ℕ} (hne : presentVals cells ≠ []) :
    qcutList cells q =
      cells.map (fun c => c.bind (qcutOfEdges (qcutEdges (presentVals cells) q))) := by
  rw [qcutList, if_neg]
  intro h
  exact hne (List.isEmpty_iff.mp h)

/-- C4 (amended): within `segment_rfm`, whenever two rows both have a defined
recency score, the score is monotonically decreasing in the raw recency value:
`recency_a <= recency_b` implies `score_a >= score_b`.  (The claim as written
fails only when a score is NaN, see the counterexample.) -/
theorem c4_amended (cells : List (Option ℚ)) (n i j : ℕ) (va vb sa sb : ℚ)
    (hvi : cells[i]? = some (some va)) (hvj : cells[j]? = some (some vb))
    (hsi : (rScoresOf cells n)[i]? = some (some sa))
    (hsj : (rScoresOf cells n)[j]? = some (some sb))
    (hle : va ≤ vb) : sb ≤ sa := by
  have hvamem : va ∈ presentVals cells := mem_presentVals hvi
  have hne : presentVals cells ≠ [] := by
    intro h
    rw [h] at hvamem
    cases hvamem
  obtain ⟨e0, he0, he0le⟩ := qcutEdges_head n hne
  rw [rScoresOf, qcutList_eq hne, List.map_map, List.getElem?_map, hvi] at hsi
  rw [rScoresOf, qcutList_eq hne, List.map_map, List.getElem?_map, hvj] at hsj
  simp only [Option.map_some', Function.comp_apply, Option.map_eq_some',
    Option.some.injEq] at hsi hsj
  rcases hsi with ⟨ba, hba, hsa⟩
  rcases hsj with ⟨bb, hbb, hsb⟩
  have hmono : ba ≤ bb :=
    qcutOfEdges_mono he0 (he0le va hvamem) (he0le vb (mem_presentVals hvj)) hle hba hbb
  rw [← hsa, ← hsb]
  have : (ba : ℚ) ≤ (bb : ℚ) := Nat.cast_le.mpr hmono
  linarith

/-- C4 counterexample: on the constant recency column of `d4` every recency
score is NaN, so for rows 0 and 1 (`recency 1 <= 1`) the Python comparison
`score_0 >= score_1` is false — the claimed monotonic inequality between the
scores does not hold there. -/
theorem c4_counterexample :
    (getNumericCol d4 "recency").map (fun cs => rScoresOf cs 2) = .ok [none, none] ∧
    ((1 : ℚ) ≤ 1 ∧
      scoreGe ((rScoresOf [some 1, some 1] 2).getD 0 none)
        ((rScoresOf [some 1, some 1] 2).getD 1 none) = false) :=
  ⟨by decide, by decide, by decide⟩

/-- C4 amended, witness: recency column `[1, 2]` with `n_segments = 2` gives
scores `[1, 0]`; the theorem yields `0 <= 1`. -/
theorem c4_amended_witness :
    rScoresOf [some 1, some 2] 2 = [some 1, some 0] ∧ (0 : ℚ) ≤ 1 :=
  ⟨by decide,
   c4_amended [some 1, some 2] 2 0 1 1 2 1 0 (by decide) (by decide)
     (by decide) (by decide) (by decide)⟩

/-! ### Shape of the insight lists -/

/-- Every insight of the per-column CV/skew block is a high-variability or a
skew insight. -/
lemma mem_numColInsights {x : Insight} {c : String × List (Option ℚ)}
    (hx : x ∈ numColInsights c) :
    (∃ s, x = Insight.highVariability s) ∨ ∃ s r, x = Insight.skewed s r := by
  rw [numColInsights] at hx
  rcases List.mem_append.mp hx with h | h
  · split_ifs at h with hcv
    · exact Or.inl ⟨c.1, List.mem_singleton.mp h⟩
    · cases h
  · rcases hsk : skewInsight c.2 with _ | r <;> rw [hsk] at h
    · cases h
    · exact Or.inr ⟨c.1, r, List.mem_singleton.mp h⟩

/-- A correlation insight never occurs among the base insights. -/
lemma strongCorr_not_mem_base (d : Dataset) (a b : String) (pos : Bool) :
    Insight.strongCorr a b pos ∉ baseInsights d := by
  intro hx
  rw [baseInsights] at hx
  rcases List.mem_append.mp hx with h | h
  · rcases List.mem_append.mp h with h2 | h2
    · cases List.mem_singleton.mp h2
    · split_ifs at h2 with hmiss
      · cases List.mem_singleton.mp h2
      · cases h2
  · rcases List.mem_flatMap.mp h with ⟨c, _, hc⟩
    rcases mem_numColInsights hc with ⟨s, hs⟩ | ⟨s, r, hs⟩ <;> cases hs

/-- A missing-columns insight never occurs in the correlation block. -/
lemma missingCols_not_mem_corr (nc : List (String × List (Option ℚ))) (m : ℕ) :
    Insight.missingCols m ∉ corrInsightOf nc := by
  intro hx
  rw [corrInsightOf] at hx
  rcases htop : topPair (pairsUpper nc) with _ | t
  · rw [htop] at hx
    exact (List.not_mem_nil _) hx
  · rw [htop] at hx
    replace hx : Insight.missingCols m ∈
        (match t.r with
         | some r => if r.absGt07 = true then [Insight.strongCorr t.a t.b r.pos] else []
         | none => []) := hx
    rcases hr : t.r with _ | r
    · rw [hr] at hx
      exact (List.not_mem_nil _) hx
    · rw [hr] at hx
      replace hx : Insight.missingCols m ∈
          (if r.absGt07 = true then [Insight.strongCorr t.a t.b r.pos] else []) := hx
      split_ifs at hx with h7
      · cases List.mem_singleton.mp hx
      · cases hx

/-- A missing-columns insight occurs among the base insights exactly when the
dataset has a missing value. -/
lemma missingCols_mem_base_iff (d : Dataset) :
    (∃ m, Insight.missingCols m ∈ baseInsights d) ↔ 0 < (profile d).totalMissing := by
  constructor
  · rintro ⟨m, hx⟩
    rw [baseInsights] at hx
    rcases List.mem_append.mp hx with h | h
    · rcases List.mem_append.mp h with h2 | h2
      · cases List.mem_singleton.mp h2
      · split_ifs at h2 with hmiss
        · exact hmiss
        · cases h2
    · rcases List.mem_flatMap.mp h with ⟨c, _, hc⟩
      rcases mem_numColInsights hc with ⟨s, hs⟩ | ⟨s, r, hs⟩ <;> cases hs
  · intro hmiss
    refine ⟨(profile d).missingColsCount, ?_⟩
    rw [baseInsights]
    refine List.mem_append_left _ (List.mem_append_right _ ?_)
    rw [if_pos hmiss]
    exact List.mem_singleton.mpr rfl

/-- Under rectangularity, a dataset with a missing value has at least one row. -/
lemma nrows_pos_of_missing {d : Dataset} (hrect : Rect d)
    (hmiss : 0 < (profile d).totalMissing) : d.nrows ≠ 0 := by
  intro h0
  have hall : ∀ x ∈ (d.cols.map (fun c => c.data.missingCount)), x = 0 := by
    intro x hx
    rcases List.mem_map.mp hx with ⟨c, hc, rfl⟩
    have hlen : c.data.clen = 0 := (hrect c hc).trans h0
    have hle : c.data.missingCount ≤ c.data.clen := by
      cases c.data <;> exact List.countP_le_length _
    omega
  have : (d.cols.map (fun c => c.data.missingCount)).sum = 0 := List.sum_eq_zero hall
  rw [profile] at hmiss
  simp only at hmiss
  omega

/-! ### C6: a single numeric column -/

/-- C6: on every dataset with exactly one numeric column, `generate_insights`
does not raise (the correlation step is guarded by `len(numeric_cols) >= 2`)
and its result contains no correlation insight. -/
theorem c6_single_numeric (d : Dataset) (h1 : (numericCols d).length = 1) :
    ∃ ins, generateInsights d = .ok ins ∧
      ∀ (a b : String) (pos : Bool), Insight.strongCorr a b pos ∉ ins := by
  rw [generateInsights, if_neg (by omega)]
  exact ⟨baseInsights d, rfl, fun a b pos => strongCorr_not_mem_base d a b pos⟩

/-- C6 witness: the theorem applied to `d6` (one numeric and one text column). -/
theorem c6_witness :
    (numericCols d6).length = 1 ∧
    ∃ ins, generateInsights d6 = .ok ins ∧
      ∀ (a b : String) (pos : Bool), Insight.strongCorr a b pos ∉ ins :=
  ⟨by decide, c6_single_numeric d6 (by decide)⟩

/-! ### C9: the missing-data insight -/

/-- C9: for every rectangular dataset, `generate_insights` emits the
missing-columns insight (with the count of affected columns) exactly when the
dataset contains at least one missing value; with no missing values the
insight is omitted entirely, not emitted with a zero count. -/
theorem c9_missing_insight (d : Dataset) (hrect : Rect d) :
    (∃ ins m, generateInsights d = .ok ins ∧ Insight.missingCols m ∈ ins) ↔
      0 < (profile d).totalMissing := by
  constructor
  · rintro ⟨ins, m, hok, hmem⟩
    rw [generateInsights] at hok
    split_ifs at hok with hlen
    · rcases hc : correlation d with e | mtx <;> rw [hc] at hok
      · cases hok
      · have hins : baseInsights d ++ corrInsightOf (numericCols d) = ins :=
          Except.ok.inj hok
        rw [← hins] at hmem
        rcases List.mem_append.mp hmem with h | h
        · exact (missingCols_mem_base_iff d).mp ⟨m, h⟩
        · exact absurd h (missingCols_not_mem_corr _ m)
    · have hins : baseInsights d = ins := Except.ok.inj hok
      rw [← hins] at hmem
      exact (missingCols_mem_base_iff d).mp ⟨m, hmem⟩
  · intro hmiss
    obtain ⟨m, hm⟩ := (missingCols_mem_base_iff d).mpr hmiss
    rw [generateInsights]
    split_ifs with hlen
    · have hcond : ¬((numericCols d).isEmpty = true ∨ d.nrows = 0) := by
        rintro (hc | hc)
        · rw [List.isEmpty_iff.mp hc] at hlen
          simp at hlen
        · exact nrows_pos_of_missing hrect hmiss hc
      rw [correlation, if_neg hcond]
      exact ⟨_, m, rfl, List.mem_append_left _ hm⟩
    · exact ⟨_, m, rfl, hm⟩

/-- C9 witness: the theorem applied to `d9w` (one missing cell). -/
theorem c9_witness :
    ∃ ins m, generateInsights d9w = .ok ins ∧ Insight.missingCols m ∈ ins :=
  (c9_missing_insight d9w (by decide)).mpr (by decide)

/-! ### C8: scale invariance of the CV trigger -/

/-- Justification of the rational encoding used in `cvHighB`: over the reals,
for a nonzero mean and nonnegative variance, `std/mean * 100 > 50` is
equivalent to `0 < mean ∧ mean^2 < 4*var`. -/
theorem cv_encoding (μ v : ℝ) (hv : 0 ≤ v) (hμ : μ ≠ 0) :
    (Real.sqrt v / μ * 100 > 50) ↔ (0 < μ ∧ μ ^ 2 < 4 * v) := by
  rcases lt_or_gt_of_ne hμ with hneg | hpos
  · constructor
    · intro h
      have hs : 0 ≤ Real.sqrt v := Real.sqrt_nonneg v
      have hd : Real.sqrt v / μ ≤ 0 := div_nonpos_of_nonneg_of_nonpos hs hneg.le
      nlinarith
    · rintro ⟨hp, _⟩
      exact absurd hp (not_lt.mpr hneg.le)
  · constructor
    · intro h
      refine ⟨hpos, ?_⟩
      rw [gt_iff_lt, div_mul_eq_mul_div, lt_div_iff₀ hpos] at h
      have h3 : μ / 2 < Real.sqrt v := by linarith
      have h4 : (μ / 2) ^ 2 < v := (Real.lt_sqrt (by positivity)).mp h3
      nlinarith
    · rintro ⟨hp, hlt⟩
      have h4 : μ / 2 < Real.sqrt v :=
        (Real.lt_sqrt (by positivity)).mpr (by nlinarith)
      rw [gt_iff_lt, div_mul_eq_mul_div, lt_div_iff₀ hp]
      nlinarith

/-- Scaling commutes with extracting the present values. -/
lemma presentVals_scale (c : ℚ) (cells : List (Option ℚ)) :
    presentVals (scaleCells c cells) = (presentVals cells).map (fun x => c * x) := by
  rw [presentVals, scaleCells, presentVals, List.filterMap_map, List.map_filterMap]
  rfl

/-- Pulling a constant factor out of a list sum. -/
lemma sum_map_mul (c : ℚ) (l : List ℚ) : (l.map (fun x => c * x)).sum = c * l.sum := by
  induction l with
  | nil => simp
  | cons x xs ih => simp [ih, mul_add]

/-- The mean scales linearly. -/
lemma meanQ_scale (c : ℚ) (cells : List (Option ℚ)) :
    meanQ (scaleCells c cells) = (meanQ cells).map (fun x => c * x) := by
  rw [meanQ, meanQ, presentVals_scale, List.length_map]
  split_ifs with h
  · rfl
  · rw [Option.map_some' ]
    congr 1
    rw [sum_map_mul, mul_div_assoc]

/-- The sample variance scales with the square of the factor. -/
lemma varQ_scale (c : ℚ) (cells : List (Option ℚ)) :
    varQ (scaleCells c cells) = (varQ cells).map (fun v => c ^ 2 * v) := by
  rw [varQ, varQ, presentVals_scale, List.length_map]
  split_ifs with h
  · rfl
  · rw [Option.map_some' ]
    congr 1
    rw [List.map_map, sum_map_mul]
    have hfun : ((fun y => (y - c * (presentVals cells).sum /
        ((presentVals cells).length : ℚ)) ^ 2) ∘ (fun x => c * x)) =
        fun x => c ^ 2 * ((x - (presentVals cells).sum /
          ((presentVals cells).length : ℚ)) ^ 2) := by
      funext x
      simp only [Function.comp_apply]
      ring
    rw [hfun]
    rw [show (fun x => c ^ 2 * ((x - (presentVals cells).sum /
        ((presentVals cells).length : ℚ)) ^ 2)) =
        ((fun y => c ^ 2 * y) ∘ (fun x => (x - (presentVals cells).sum /
          ((presentVals cells).length : ℚ)) ^ 2)) from rfl]
    rw [← List.map_map, sum_map_mul, mul_div_assoc]

/-- Scaling a column by a positive constant does not change the CV trigger. -/
lemma cvHighB_scale {c : ℚ} (hc : 0 < c) (cells : List (Option ℚ)) :
    cvHighB (scaleCells c cells) = cvHighB cells := by
  rw [cvHighB, cvHighB, meanQ_scale, varQ_scale]
  rcases hm : meanQ cells with _ | μ <;> rcases hv : varQ cells with _ | v <;>
    simp only [Option.map_none', Option.map_some'] <;> try rfl
  show decide (0 < c * μ ∧ (c * μ) ^ 2 < 4 * (c ^ 2 * v)) =
    decide (0 < μ ∧ μ ^ 2 < 4 * v)
  rw [decide_eq_decide]
  have hc2 : (0 : ℚ) < c ^ 2 := by positivity
  constructor
  · rintro ⟨h1, h2⟩
    have hμpos : 0 < μ := by
      rcases mul_pos_iff.mp h1 with ⟨_, hp⟩ | ⟨hcneg, _⟩
      · exact hp
      · linarith
    refine ⟨hμpos, ?_⟩
    have h2a : c ^ 2 * μ ^ 2 < c ^ 2 * (4 * v) := by nlinarith
    exact (mul_lt_mul_left hc2).mp h2a
  · rintro ⟨h1, h2⟩
    refine ⟨mul_pos hc h1, ?_⟩
    have h2a : c ^ 2 * μ ^ 2 < c ^ 2 * (4 * v) := (mul_lt_mul_left hc2).mpr h2
    nlinarith

/-- The high-variability insight is emitted for a column exactly when its CV
trigger fires. -/
lemma highVar_mem_numColInsights (nm : String) (cs : List (Option ℚ)) :
    Insight.highVariability nm ∈ numColInsights (nm, cs) ↔ cvHighB cs = true := by
  rw [numColInsights]
  constructor
  · intro h
    rcases List.mem_append.mp h with h2 | h2
    · split_ifs at h2 with hcv
      · exact hcv
      · cases h2
    · rcases hsk : skewInsight cs with _ | r
      · rw [hsk] at h2
        cases h2
      · rw [hsk] at h2
        cases List.mem_singleton.mp h2
  · intro h
    apply List.mem_append_left
    rw [if_pos h]
    exact List.mem_singleton.mpr rfl

/-- C8: for a numeric column with nonzero mean, multiplying every value by a
positive constant `c` does not change whether `generate_insights` emits the
high-variability insight for that column (`numColInsights` is the per-column
insight block applied to each of the first three numeric columns). -/
theorem c8_cv_scale_invariant (nm : String) (cells : List (Option ℚ)) (c μ : ℚ)
    (hc : 0 < c) (hμ : meanQ cells = some μ) (hμ0 : μ ≠ 0) :
    (Insight.highVariability nm ∈ numColInsights (nm, scaleCells c cells) ↔
      Insight.highVariability nm ∈ numColInsights (nm, cells)) := by
  rw [highVar_mem_numColInsights, highVar_mem_numColInsights, cvHighB_scale hc]

/-- C8 witness: the theorem applied to the column `[1, 3]` scaled by 5. -/
theorem c8_witness :
    meanQ [some 1, some 3] = some 2 ∧
    (Insight.highVariability "a" ∈ numColInsights ("a", scaleCells 5 [some 1, some 3]) ↔
      Insight.highVariability "a" ∈ numColInsights ("a", [some 1, some 3])) :=
  ⟨by decide,
   c8_cv_scale_invariant "a" [some 1, some 3] 5 2 (by decide) (by decide) (by decide)⟩

/-! ### C5: tie-breaking of the top-correlation pair -/

/-- The head of a stable descending insertion equals the winner of the head
comparison. -/
lemma head?_insertGe (ge : CPair → CPair → Bool) (x : CPair) (l : List CPair) :
    (insertGe ge x l).head? =
      some (match l with | [] => x | y :: _ => if ge x y then x else y) := by
  cases l with
  | nil => rfl
  | cons y ys =>
    rw [insertGe]
    split_ifs with h <;> simp [h]

/-- The head of the stable descending sort is the first element no later
element strictly beats. -/
lemma sortDescBy_head (ge : CPair → CPair → Bool) (l : List CPair) :
    (sortDescBy ge l).head? = firstSelect ge l := by
  induction l with
  | nil => rfl
  | cons x xs ih =>
    rw [sortDescBy, firstSelect]
    cases hs : sortDescBy ge xs with
    | nil =>
      rw [hs] at ih
      rw [← ih]
      rfl
    | cons y ys =>
      rw [hs] at ih
      rw [← ih]
      show (insertGe ge x (y :: ys)).head? = if ge x y then some x else some y
      rw [insertGe]
      split_ifs <;> rfl

/-- `firstSelect` is `none` only on the empty list. -/
lemma firstSelect_eq_none {ge : CPair → CPair → Bool} {l : List CPair}
    (h : firstSelect ge l = none) : l = [] := by
  cases l with
  | nil => rfl
  | cons x xs =>
    rw [firstSelect] at h
    rcases hf : firstSelect ge xs with _ | q <;> rw [hf] at h
    · cases h
    · replace h : (if ge x q = true then some x else some q) = none := h
      split_ifs at h <;> cases h

/-- The selected pair is an element of the list. -/
lemma firstSelect_mem {ge : CPair → CPair → Bool} {l : List CPair} {t : CPair}
    (h : firstSelect ge l = some t) : t ∈ l := by
  induction l generalizing t with
  | nil => cases h
  | cons x xs ih =>
    rw [firstSelect] at h
    rcases hf : firstSelect ge xs with _ | q <;> rw [hf] at h
    · exact (Option.some.inj h) ▸ List.mem_cons_self x xs
    · replace h : (if ge x q = true then some x else some q) = some t := h
      split_ifs at h with hxq
      · exact (Option.some.inj h) ▸ List.mem_cons_self x xs
      · have htq : q = t := Option.some.inj h
        have hqmem : q ∈ xs := ih hf
        rw [htq] at hqmem
        exact List.mem_cons_of_mem x hqmem

/-- `keyGe` is reflexive on well-formed pairs. -/
lemma keyGe_refl {p : CPair} (hp : GoodPair p) : keyGe p p = true := by
  rcases hp with ⟨r, hr, _⟩
  rw [keyGe, hr]
  show r.absGe r = true
  rw [PearsonR.absGe]
  exact decide_eq_true (le_refl _)

/-- `keyGe` is total on well-formed pairs. -/
lemma keyGe_total {p q : CPair} (hp : GoodPair p) (hq : GoodPair q)
    (h : ¬ keyGe p q = true) : keyGe q p = true := by
  rcases hp with ⟨r, hr, _⟩
  rcases hq with ⟨s, hs, _⟩
  rw [keyGe, hr, hs] at h
  rw [keyGe, hs, hr]
  replace h : ¬ (s.num ^ 2 * r.den2 ≤ r.num ^ 2 * s.den2) := by
    intro hc
    exact h (decide_eq_true hc)
  exact decide_eq_true (le_of_not_le h)

/-- `keyGe` is transitive on well-formed pairs (the middle denominator is
positive, so the cross-multiplied inequalities compose). -/
lemma keyGe_trans {p q s : CPair} (hp : GoodPair p) (hq : GoodPair q)
    (hs : GoodPair s) (h1 : keyGe p q = true) (h2 : keyGe q s = true) :
    keyGe p s = true := by
  rcases hp with ⟨a, ha, hap⟩
  rcases hq with ⟨b, hb, hbp⟩
  rcases hs with ⟨c, hc, hcp⟩
  rw [keyGe, ha, hb] at h1
  rw [keyGe, hb, hc] at h2
  rw [keyGe, ha, hc]
  replace h1 : b.num ^ 2 * a.den2 ≤ a.num ^ 2 * b.den2 := of_decide_eq_true h1
  replace h2 : c.num ^ 2 * b.den2 ≤ b.num ^ 2 * c.den2 := of_decide_eq_true h2
  refine decide_eq_true ?_
  nlinarith [mul_le_mul_of_nonneg_right h1 hcp.le, mul_le_mul_of_nonneg_right h2 hap.le, hbp]

/-- The selected pair attains the maximum key among well-formed pairs. -/
lemma firstSelect_max {l : List CPair} {t : CPair}
    (hAll : ∀ p ∈ l, GoodPair p) (ht : firstSelect keyGe l = some t) :
    ∀ p ∈ l, keyGe t p = true := by
  induction l generalizing t with
  | nil => cases ht
  | cons x xs ih =>
    rw [firstSelect] at ht
    rcases hf : firstSelect keyGe xs with _ | q <;> rw [hf] at ht
    · have hxt : x = t := Option.some.inj ht
      subst hxt
      have hnil : xs = [] := firstSelect_eq_none hf
      subst hnil
      intro p hp
      rcases List.mem_cons.mp hp with rfl | hp2
      · exact keyGe_refl (hAll p (List.mem_cons_self p []))
      · cases hp2
    · replace ht : (if keyGe x q = true then some x else some q) = some t := ht
      have hAllxs : ∀ p ∈ xs, GoodPair p :=
        fun p hp => hAll p (List.mem_cons_of_mem x hp)
      have hqmem : q ∈ xs := firstSelect_mem hf
      have hmax := ih hAllxs hf
      split_ifs at ht with hxq
      · have hxt : x = t := Option.some.inj ht
        subst hxt
        intro p hp
        rcases List.mem_cons.mp hp with rfl | hp2
        · exact keyGe_refl (hAll p (List.mem_cons_self p xs))
        · exact keyGe_trans (hAll x (List.mem_cons_self x xs)) (hAllxs q hqmem)
            (hAllxs p hp2) hxq (hmax p hp2)
      · have hqt : q = t := Option.some.inj ht
        subst hqt
        intro p hp
        rcases List.mem_cons.mp hp with rfl | hp2
        · exact keyGe_total (hAll p (List.mem_cons_self p xs)) (hAllxs q hqmem) hxq
        · exact hmax p hp2

/-- The selected pair is the first to attain the maximum: everything before it
in the enumeration compares strictly below it. -/
lemma firstSelect_first {l : List CPair} {t : CPair}
    (ht : firstSelect keyGe l = some t) :
    ∃ pre post, l = pre ++ t :: post ∧ ∀ p ∈ pre, keyGe p t = false := by
  induction l generalizing t with
  | nil => cases ht
  | cons x xs ih =>
    rw [firstSelect] at ht
    rcases hf : firstSelect keyGe xs with _ | q <;> rw [hf] at ht
    · have hxt : x = t := Option.some.inj ht
      subst hxt
      exact ⟨[], xs, rfl, fun p hp => absurd hp (List.not_mem_nil p)⟩
    · replace ht : (if keyGe x q = true then some x else some q) = some t := ht
      split_ifs at ht with hxq
      · have hxt : x = t := Option.some.inj ht
        subst hxt
        exact ⟨[], xs, rfl, fun p hp => absurd hp (List.not_mem_nil p)⟩
      · have hqt : q = t := Option.some.inj ht
        subst hqt
        obtain ⟨pre, post, hsplit, hpre⟩ := ih hf
        refine ⟨x :: pre, post, by rw [hsplit]; rfl, ?_⟩
        intro p hp
        rcases List.mem_cons.mp hp with rfl | hp2
        · exact Bool.not_eq_true _ ▸ eq_false_of_ne_true hxq
        · exact hpre p hp2

/-- The denominator square produced by `pearson` is positive: it is a product
of two sums of squares that the source checks to be nonzero. -/
lemma pearsonOf_den2_pos {ps : List (ℚ × ℚ)} {r : PearsonR}
    (h : pearsonOf ps = some r) : 0 < r.den2 := by
  simp only [pearsonOf] at h
  by_cases hvv :
      ((ps.map (fun p => (p.1 - (ps.map Prod.fst).sum / (ps.length : ℚ)) ^ 2)).sum *
        (ps.map (fun p => (p.2 - (ps.map Prod.snd).sum / (ps.length : ℚ)) ^ 2)).sum) = 0
  · rw [if_pos hvv] at h
    cases h
  · rw [if_neg hvv] at h
    have hden := congrArg PearsonR.den2 (Option.some.inj h)
    rw [← hden]
    refine lt_of_le_of_ne (mul_nonneg ?_ ?_) (Ne.symm hvv)
    · refine List.sum_nonneg (fun x hx => ?_)
      rcases List.mem_map.mp hx with ⟨p, _, rfl⟩
      exact sq_nonneg _
    · refine List.sum_nonneg (fun x hx => ?_)
      rcases List.mem_map.mp hx with ⟨p, _, rfl⟩
      exact sq_nonneg _

/-- The denominator square of any defined `pearson` entry is positive. -/
lemma pearson_den2_pos {xs ys : List (Option ℚ)} {r : PearsonR}
    (h : pearson xs ys = some r) : 0 < r.den2 := by
  rw [pearson] at h
  by_cases h0 : (completePairs xs ys).length = 0
  · rw [if_pos h0] at h
    cases h
  · rw [if_neg h0] at h
    exact pearsonOf_den2_pos h

/-- Every pair of the enumeration carries a `pearson` coefficient. -/
lemma pairsUpper_r {nc : List (String × List (Option ℚ))} {p : CPair}
    (hp : p ∈ pairsUpper nc) : ∃ xs ys, p.r = pearson xs ys := by
  induction nc with
  | nil => cases hp
  | cons c rest ih =>
    rw [pairsUpper] at hp
    rcases List.mem_append.mp hp with h | h
    · rcases List.mem_map.mp h with ⟨c2, _, rfl⟩
      exact ⟨c.2, c2.2, rfl⟩
    · exact ih h

/-- When all pairs of the enumeration have defined coefficients, they are all
well-formed (defined with a positive denominator square). -/
lemma pairsUpper_good {nc : List (String × List (Option ℚ))}
    (hAll : ∀ p ∈ pairsUpper nc, p.r.isSome) :
    ∀ p ∈ pairsUpper nc, GoodPair p := by
  intro p hp
  obtain ⟨xs, ys, hr⟩ := pairsUpper_r hp
  have hs := hAll p hp
  rcases hsome : p.r with _ | r
  · rw [hsome] at hs
    cases hs
  · refine ⟨r, hsome, ?_⟩
    rw [hsome] at hr
    exact pearson_den2_pos hr.symm

/-- C5: whenever `generate_insights` reports a correlation insight and every
enumerated pair has a defined (non-NaN) coefficient, the reported pair is the
one encountered first in the fixed enumeration order (first index increasing,
second index larger): the pair list splits as `pre ++ t :: post` where `t` is
the reported pair, every earlier pair compares strictly below `t`, and `t`
attains the maximum absolute coefficient. -/
theorem c5_tie_breaking (d : Dataset) (a b : String) (pos : Bool)
    (ins : List Insight)
    (hok : generateInsights d = .ok ins)
    (hmem : Insight.strongCorr a b pos ∈ ins)
    (hAll : ∀ p ∈ pairsUpper (numericCols d), p.r.isSome) :
    ∃ t pre post, pairsUpper (numericCols d) = pre ++ t :: post ∧
      t.a = a ∧ t.b = b ∧
      (∀ p ∈ pairsUpper (numericCols d), keyGe t p = true) ∧
      ∀ p ∈ pre, keyGe p t = false := by
  rw [generateInsights] at hok
  split_ifs at hok with hlen
  · rcases hc : correlation d with e | mtx <;> rw [hc] at hok
    · cases hok
    · have hins : baseInsights d ++ corrInsightOf (numericCols d) = ins :=
        Except.ok.inj hok
      rw [← hins] at hmem
      rcases List.mem_append.mp hmem with h | h
      · exact absurd h (strongCorr_not_mem_base d a b pos)
      · rw [corrInsightOf] at h
        rcases htop : topPair (pairsUpper (numericCols d)) with _ | t
        · rw [htop] at h
          exact absurd h (List.not_mem_nil _)
        · rw [htop] at h
          replace h : Insight.strongCorr a b pos ∈
              (match t.r with
               | some r =>
                 if r.absGt07 = true then [Insight.strongCorr t.a t.b r.pos] else []
               | none => []) := h
          rcases hr : t.r with _ | r
          · rw [hr] at h
            exact absurd h (List.not_mem_nil _)
          · rw [hr] at h
            replace h : Insight.strongCorr a b pos ∈
                (if r.absGt07 = true then [Insight.strongCorr t.a t.b r.pos]
                 else []) := h
            split_ifs at h with h7
            · have heq := List.mem_singleton.mp h
              injection heq with ha hb hpos
              have hfs : firstSelect keyGe (pairsUpper (numericCols d)) = some t := by
                rw [← sortDescBy_head]
                rw [topPair] at htop
                exact htop
              have hgood := pairsUpper_good hAll
              obtain ⟨pre, post, hsplit, hpre⟩ := firstSelect_first hfs
              exact ⟨t, pre, post, hsplit, ha.symm, hb.symm,
                firstSelect_max hgood hfs, hpre⟩
            · cases h
  · have hins : baseInsights d = ins := Except.ok.inj hok
    rw [← hins] at hmem
    exact absurd hmem (strongCorr_not_mem_base d a b pos)

/-- C5 witness: on `d5` (three identical columns, all pairwise r = 1, a
three-way tie) the reported pair is (x, y), the first in enumeration order. -/
theorem c5_witness :
    ∃ t pre post, pairsUpper (numericCols d5) = pre ++ t :: post ∧
      t.a = "x" ∧ t.b = "y" ∧
      (∀ p ∈ pairsUpper (numericCols d5), keyGe t p = true) ∧
      ∀ p ∈ pre, keyGe p t = false :=
  c5_tie_breaking d5 "x" "y" true
    [Insight.rowcol 3 3, Insight.strongCorr "x" "y" true]
    (by decide) (by decide) (by decide)

end Analyzer
